import Mathlib

/-!
# Verification of the compliance_rag text normalizer and trace recorder

Shallow embedding of the core logic of the repository:

* `scripts/preprocess_text.py` — the text-normalization pipeline
  (`clean_special_characters`, `remove_page_artifacts`,
  `remove_table_of_contents_artifacts`, `normalize_section_headers`,
  `remove_excessive_whitespace`, `preprocess_text`, `calculate_stats`);
* `scripts/06_capture_traces.py` — the interactive trace-capture session loop
  (`interactive_session_with_traces`);
* `scripts/07_generate_example_traces.py` — the batch example-trace generator
  (`generate_traces`, `EXAMPLE_QUESTIONS`).

Text is modelled as `List Char`.  Python regular-expression substitutions are
modelled by executable scanners whose behaviour was derived from the concrete
regexes used in the source (`' {2,}'`, `'\n{3,}'`, the page-artifact line
patterns, `'\.{3,}\s*\d+'` and the MULTILINE `'\s+\d+\s*$'`).  `\d` and
`[A-Z]` are modelled as the ASCII ranges; `\s` and Python `str.strip` use the
Python whitespace set.  Python `float` arithmetic in `calculate_stats` is
modelled by exact rationals, with `round(x, 2)` as round-half-to-even at two
decimal places.
-/

namespace ComplianceRag

/-- Python whitespace (the set accepted by `str.strip()` / regex `\s`):
ASCII whitespace, the C1 separators, and the Unicode space characters. -/
def pyWs (c : Char) : Bool :=
  c == ' ' || c == '\t' || c == '\n' || c == '\r' || c == '\x0b' || c == '\x0c' ||
  c == '\x1c' || c == '\x1d' || c == '\x1e' || c == '\x1f' || c == '\x85' ||
  c == ' ' || c == ' ' || (' ' ≤ c && c ≤ ' ') ||
  c == ' ' || c == ' ' || c == ' ' || c == ' ' || c == '　'

/-- Regex `\d`, modelled as the ASCII digits. -/
def isDigitChar (c : Char) : Bool := '0' ≤ c && c ≤ '9'

/-- Regex `[A-Z]` (ASCII uppercase), used by `normalize_section_headers`. -/
def isUpperChar (c : Char) : Bool := 'A' ≤ c && c ≤ 'Z'

/-- The dash alternatives of the page-number regex `[-–—]`. -/
def isDashChar (c : Char) : Bool := c == '-' || c == '–' || c == '—'

/-- ASCII alphanumeric characters (the tokens of the content-preservation
property). -/
def isAlnumChar (c : Char) : Bool :=
  isDigitChar c || ('a' ≤ c && c ≤ 'z') || ('A' ≤ c && c ≤ 'Z')

/-- Python `str.lstrip()`: drop the leading whitespace run. -/
def lstrip (s : List Char) : List Char := s.dropWhile pyWs

/-- Python `str.rstrip()`: drop the trailing whitespace run. -/
def rstrip (s : List Char) : List Char := ((s.reverse).dropWhile pyWs).reverse

/-- Python `str.strip()`. -/
def strip (s : List Char) : List Char := lstrip (rstrip s)

/-- Python `str.split('\n')`: always nonempty, empty string yields `[[]]`. -/
def splitLines : List Char → List (List Char)
  | [] => [[]]
  | c :: rest =>
    if c = '\n' then [] :: splitLines rest
    else
      match splitLines rest with
      | [] => [[c]]
      | l :: ls => (c :: l) :: ls

/-- Python `'\n'.join(lines)`. -/
def joinLines : List (List Char) → List Char
  | [] => []
  | [l] => l
  | l :: l2 :: ls => l ++ '\n' :: joinLines (l2 :: ls)

/-- `re.sub(r' {2,}', ' ', text)`: every maximal run of two or more spaces
becomes a single space.  The flag records whether the previous character was a
space whose run is already represented in the output. -/
def collapseSpacesAux : Bool → List Char → List Char
  | _, [] => []
  | prev, c :: rest =>
    if c = ' ' then
      if prev then collapseSpacesAux true rest
      else ' ' :: collapseSpacesAux true rest
    else c :: collapseSpacesAux false rest

def collapseSpaces (s : List Char) : List Char := collapseSpacesAux false s

/-- `re.sub(r'\n{3,}', '\n\n', text)`: every maximal run of three or more
newlines becomes exactly two.  `k` counts the newlines of the current run that
were already emitted. -/
def collapseNewlinesAux : Nat → List Char → List Char
  | _, [] => []
  | k, c :: rest =>
    if c = '\n' then
      if k < 2 then '\n' :: collapseNewlinesAux (k + 1) rest
      else collapseNewlinesAux (k + 1) rest
    else c :: collapseNewlinesAux 0 rest

def collapseNewlines (s : List Char) : List Char := collapseNewlinesAux 0 s

/-- `remove_excessive_whitespace` from `scripts/preprocess_text.py`:
collapse space runs, collapse newline runs, then `rstrip` every line. -/
def remove_excessive_whitespace (text : List Char) : List Char :=
  joinLines (((splitLines (collapseNewlines (collapseSpaces text))).map rstrip))

/-- The per-character effect of the seven single-character entries of the
source dictionary: null bytes, BOM and zero-width spaces are dropped, the
non-breaking space becomes a space, en and em dashes become hyphens, and the
double-quote entry maps the ASCII double quote to itself (a no-op).  Because
no replacement output is itself a single-character key, applying the seven
`str.replace` calls in sequence equals this one per-character pass. -/
def cleanChar (c : Char) : Option Char :=
  if c = '\x00' ∨ c = '﻿' ∨ c = '​' then none
  else if c = ' ' then some ' '
  else if c = '–' ∨ c = '—' then some '-'
  else some c

/-- Python `str.replace(key, rep)` for a non-empty `key`: scan left to right,
replacing non-overlapping occurrences.  Fuel is the length of the string;
every step consumes at least one character. -/
def replaceAux (key rep : List Char) : Nat → List Char → List Char
  | 0, s => s
  | n + 1, s =>
    match s with
    | [] => []
    | c :: rest =>
      if key.isPrefixOf (c :: rest) then
        rep ++ replaceAux key rep n ((c :: rest).drop key.length)
      else
        c :: replaceAux key rep n rest

def pyReplace (key rep s : List Char) : List Char :=
  replaceAux key rep s.length s

/-- The multi-character entry of the source dictionary: its two single-quote
lines lex as one triple-quoted string, so the dictionary holds a single entry
replacing the fifteen-character key `: "'",` + newline + eight spaces by one
apostrophe.  In insertion order this entry is iterated last. -/
def quoteKey : List Char :=
  [':', ' ', '\x22', '\'', '\x22', ',', '\n', ' ', ' ', ' ', ' ', ' ', ' ', ' ', ' ']

/-- `clean_special_characters` from `scripts/preprocess_text.py`: the seven
single-character replacements followed by the final multi-character
replacement of `quoteKey` by an apostrophe. -/
def clean_special_characters (text : List Char) : List Char :=
  pyReplace quoteKey ['\''] (text.filterMap cleanChar)

/-- Drop one optional dash (the `[-–—]?` of the page-number regex). -/
def dropDash (s : List Char) : List Char :=
  match s with
  | d :: r => if isDashChar d then r else d :: r
  | [] => []

/-- The line test `re.match(r'^\s*[-–—]?\s*\d+\s*[-–—]?\s*$', line)`:
optional whitespace, an optional dash, optional whitespace, at least one
digit, optional whitespace, an optional dash, optional whitespace, end.
The character classes are pairwise disjoint, so the greedy parse below is
exactly the regex. -/
def isPageNumberLine (l : List Char) : Bool :=
  !(((dropDash (l.dropWhile pyWs)).dropWhile pyWs).takeWhile isDigitChar).isEmpty &&
  ((dropDash ((((dropDash (l.dropWhile pyWs)).dropWhile pyWs).dropWhile
      isDigitChar).dropWhile pyWs)).dropWhile pyWs).isEmpty

/-- The trailing `(of\s+\d+)?\s*$` of the `Page X of Y` regex, applied to the
text after `Page\s+\d+\s*`. -/
def pageTail (s3 : List Char) : Bool :=
  match s3 with
  | [] => true
  | o :: f :: r2 =>
    o.toLower == 'o' && f.toLower == 'f' && !(r2.takeWhile pyWs).isEmpty &&
    !((r2.dropWhile pyWs).takeWhile isDigitChar).isEmpty &&
    ((((r2.dropWhile pyWs).dropWhile isDigitChar).dropWhile pyWs).isEmpty)
  | _ => false

/-- The line test
`re.match(r'^\s*Page\s+\d+\s*(of\s+\d+)?\s*$', line, re.IGNORECASE)`. -/
def isPageXofYLine (l : List Char) : Bool :=
  match l.dropWhile pyWs with
  | p :: a :: g :: e :: r =>
    p.toLower == 'p' && a.toLower == 'a' && g.toLower == 'g' && e.toLower == 'e' &&
    !(r.takeWhile pyWs).isEmpty && !((r.dropWhile pyWs).takeWhile isDigitChar).isEmpty &&
    pageTail (((r.dropWhile pyWs).dropWhile isDigitChar).dropWhile pyWs)
  | _ => false

/-- The boundary short-line heuristic of `remove_page_artifacts`:
`len(line.strip()) < 3 and (i < 5 or i > len(lines) - 5)` (indices and the
subtraction over the integers, as in Python). -/
def isBoundaryShortLine (i n : Nat) (l : List Char) : Bool :=
  decide ((strip l).length < 3) && (decide ((i : Int) < 5) || decide ((i : Int) > (n : Int) - 5))

/-- `remove_page_artifacts` from `scripts/preprocess_text.py`. -/
def remove_page_artifacts (text : List Char) : List Char :=
  let lines := splitLines text
  joinLines (((lines.enum.filter (fun p =>
    !(isPageNumberLine p.2 || isPageXofYLine p.2 ||
      isBoundaryShortLine p.1 lines.length p.2))).map (·.2)))

/-- One matching attempt of `re.sub(r'\.{3,}\s*\d+', '', text)` at the current
position, returning the remainder after the match when the position starts a
match.  A match needs three or more dots, then optional whitespace, then at
least one digit; greediness is exact because the classes are disjoint. -/
def tocDotsMatch (s : List Char) : Option (List Char) :=
  if (s.takeWhile (· = '.')).length ≥ 3 then
    if (((s.dropWhile (· = '.')).dropWhile pyWs).takeWhile isDigitChar).isEmpty then none
    else some (((s.dropWhile (· = '.')).dropWhile pyWs).dropWhile isDigitChar)
  else none

/-- Fuelled scanner for `re.sub(r'\.{3,}\s*\d+', '', text)`. -/
def removeTocDotsAux : Nat → List Char → List Char
  | 0, s => s
  | _ + 1, [] => []
  | n + 1, c :: rest =>
    match tocDotsMatch (c :: rest) with
    | some remainder => removeTocDotsAux n remainder
    | none => c :: removeTocDotsAux n rest

def removeTocDots (s : List Char) : List Char := removeTocDotsAux s.length s

/-- The suffix of `l` that starts at its last `'\n'` (defined when `l`
contains one). -/
def suffixFromLastNl (l : List Char) : List Char :=
  '\n' :: (l.reverse.takeWhile (· ≠ '\n')).reverse

/-- One matching attempt of `re.sub(r'\s+\d+\s*$', '', text, flags=re.MULTILINE)`
at the current position: whitespace, digits, then trailing whitespace that
either reaches the end of the string (the whole tail is removed) or contains a
`'\n'` (the match stops just before the run's last `'\n'`, which `$` matches
in MULTILINE mode).  Returns the remainder of the scan after the match. -/
def trailNumMatch (s : List Char) : Option (List Char) :=
  match s with
  | [] => none
  | c :: rest =>
    if pyWs c then
      if (((rest.dropWhile pyWs)).takeWhile isDigitChar).isEmpty then none
      else
        if ((((rest.dropWhile pyWs)).dropWhile isDigitChar).dropWhile pyWs).isEmpty then
          some []
        else if ((((rest.dropWhile pyWs)).dropWhile isDigitChar).takeWhile pyWs).contains
            '\n' then
          some (suffixFromLastNl ((((rest.dropWhile pyWs)).dropWhile
              isDigitChar).takeWhile pyWs) ++
            (((rest.dropWhile pyWs)).dropWhile isDigitChar).dropWhile pyWs)
        else none
    else none

/-- Fuelled scanner for `re.sub(r'\s+\d+\s*$', '', text, flags=re.MULTILINE)`. -/
def removeTrailNumsAux : Nat → List Char → List Char
  | 0, s => s
  | _ + 1, [] => []
  | n + 1, c :: rest =>
    match trailNumMatch (c :: rest) with
    | some remainder => removeTrailNumsAux n remainder
    | none => c :: removeTrailNumsAux n rest

def removeTrailNums (s : List Char) : List Char := removeTrailNumsAux s.length s

/-- `remove_table_of_contents_artifacts` from `scripts/preprocess_text.py`:
the dot-leader substitution followed by the trailing line-end number
substitution. -/
def remove_table_of_contents_artifacts (text : List Char) : List Char :=
  removeTrailNums (removeTocDots text)

/-- The `(\.\d+)*` part of the section-header regex: consume as many
`.digits` groups as possible, returning the consumed part and the rest. -/
def dotDigitGroups : Nat → List Char → (List Char × List Char)
  | 0, s => ([], s)
  | n + 1, s =>
    match s with
    | [] => ([], [])
    | c :: r =>
      if c = '.' then
        if (r.takeWhile isDigitChar).isEmpty then ([], c :: r)
        else
          let p := dotDigitGroups n (r.dropWhile isDigitChar)
          (c :: r.takeWhile isDigitChar ++ p.1, p.2)
      else ([], c :: r)

/-- `re.sub(r'^(\d+(?:\.\d+)*)\s*([A-Z])', r'\1 \2', line)`: anchored at the
line start; a dotted numeric prefix followed by optional whitespace and an
ASCII uppercase letter is rewritten with exactly one separating space. -/
def normalizeHeaderLine (l : List Char) : List Char :=
  if (l.takeWhile isDigitChar).isEmpty then l
  else
    match ((dotDigitGroups l.length (l.dropWhile isDigitChar)).2).dropWhile pyWs with
    | u :: r3 =>
      if isUpperChar u then
        l.takeWhile isDigitChar ++ (dotDigitGroups l.length (l.dropWhile isDigitChar)).1 ++
          ' ' :: u :: r3
      else l
    | [] => l

/-- `normalize_section_headers` from `scripts/preprocess_text.py`. -/
def normalize_section_headers (text : List Char) : List Char :=
  joinLines ((splitLines text).map normalizeHeaderLine)

/-- `preprocess_text` from `scripts/preprocess_text.py`: the five transforms
in source order followed by the final `strip`. -/
def preprocess_text (text : List Char) : List Char :=
  strip (remove_excessive_whitespace (normalize_section_headers
    (remove_table_of_contents_artifacts (remove_page_artifacts
      (clean_special_characters text)))))

/-- Round-half-to-even integer division `n / d` (`d > 0`). -/
def rheDiv (n d : ℕ) : ℕ :=
  if 2 * (n % d) < d then n / d
  else if d < 2 * (n % d) then n / d + 1
  else if n / d % 2 = 0 then n / d else n / d + 1

/-- Signed round-half-to-even of `a / b` (half-to-even rounding is
sign-symmetric). -/
def rheZ (a : ℤ) (b : ℕ) : ℤ :=
  if 0 ≤ a then (rheDiv a.toNat b : ℤ) else -(rheDiv (-a).toNat b : ℤ)

/-- Python `round(q, 2)` on an exact rational: round half to even at two
decimal places. -/
def pyRound2 (q : ℚ) : ℚ := mkRat (rheZ (q.num * 100) q.den) 100

/-- `⌊log2 n⌋` by fuelled halving (fuel `n` suffices since the argument at
least halves each step). -/
def natLog2Aux : Nat → Nat → Nat
  | 0, _ => 0
  | fuel + 1, n => if 2 ≤ n then natLog2Aux fuel (n / 2) + 1 else 0

def natLog2 (n : Nat) : Nat := natLog2Aux n n

/-- `⌊log2 (n / d)⌋` for positive `n / d`. -/
def flLog (n d : ℕ) : ℤ :=
  if d * 2 ^ natLog2 n ≤ n * 2 ^ natLog2 d then (natLog2 n : ℤ) - natLog2 d
  else (natLog2 n : ℤ) - natLog2 d - 1

/-- The scale of the unit in the last place when rounding `n / d` to an
IEEE-754 double: the value is rounded to an integer multiple of
`2 ^ (-flExp n d)` (53-bit significand; the cap `1074` is gradual
underflow). -/
def flExp (n d : ℕ) : ℤ :=
  if 52 - flLog n d ≤ 1074 then 52 - flLog n d else 1074

/-- Round the positive rational `n / d` to the nearest IEEE-754 double,
ties to even, returned as a dyadic pair `(m, e)` of value `m * 2 ^ e`.
Overflow to infinity is not modelled: it would need a ratio of string
lengths beyond `2 ^ 1024`, which no pair of actual strings can realize. -/
def flPair (n d : ℕ) : ℕ × ℤ :=
  if 0 ≤ flExp n d then (rheDiv (n * 2 ^ (flExp n d).toNat) d, -flExp n d)
  else (rheDiv n (d * 2 ^ (-flExp n d).toNat), -flExp n d)

/-- Round the rational `a / b` to the nearest IEEE-754 double as a signed
dyadic pair (IEEE rounding is sign-symmetric). -/
def flDy (a : ℤ) (b : ℕ) : ℤ × ℤ :=
  if 0 ≤ a then (((flPair a.toNat b).1 : ℤ), (flPair a.toNat b).2)
  else (-((flPair (-a).toNat b).1 : ℤ), (flPair (-a).toNat b).2)

/-- Numerator of a dyadic pair as a fraction over `dyDen`. -/
def dyNum (x : ℤ × ℤ) : ℤ := if 0 ≤ x.2 then x.1 * 2 ^ x.2.toNat else x.1

def dyDen (x : ℤ × ℤ) : ℕ := if 0 ≤ x.2 then 1 else 2 ^ (-x.2).toNat

/-- The double `1 - x` (the subtraction is performed on exact dyadic values
and then rounded, which is IEEE subtraction). -/
def oneSubDy (x : ℤ × ℤ) : ℤ × ℤ := flDy ((dyDen x : ℤ) - dyNum x) (dyDen x)

/-- The double `x * 100`. -/
def mul100Dy (x : ℤ × ℤ) : ℤ × ℤ := flDy (dyNum x * 100) (dyDen x)

/-- Python `round(x, 2)` on a double `x`: CPython rounds the exact decimal
value of the double half-to-even at two decimals and returns the double
nearest the result. -/
def pyRound2Dy (x : ℤ × ℤ) : ℤ × ℤ := flDy (rheZ (dyNum x * 100) (dyDen x)) 100

def dyToRat (x : ℤ × ℤ) : ℚ :=
  if 0 ≤ x.2 then mkRat (x.1 * 2 ^ x.2.toNat) 1 else mkRat x.1 (2 ^ (-x.2).toNat)

/-- The exact rational value of the double the program computes for
`round((1 - p / o) * 100, 2)`: IEEE rounding after the division, the
subtraction and the multiplication, then Python `round(·, 2)`. -/
def pctDouble (p o : ℕ) : ℚ :=
  dyToRat (pyRound2Dy (mul100Dy (oneSubDy (flDy (p : ℤ) o))))

/-- The statistics record returned by `calculate_stats`. -/
structure Stats where
  original_length : ℕ
  processed_length : ℕ
  reduction_chars : ℤ
  reduction_percent : ℚ
  original_lines : ℕ
  processed_lines : ℕ
  deriving DecidableEq

/-- `calculate_stats` from `scripts/preprocess_text.py`.  The `float`
arithmetic of `round((1 - len(processed) / len(original)) * 100, 2)` is
modelled by the exact rational value of the IEEE-754 double the program
computes (`pctDouble`). -/
def calculate_stats (original processed : List Char) : Stats where
  original_length := original.length
  processed_length := processed.length
  reduction_chars := (original.length : ℤ) - (processed.length : ℤ)
  reduction_percent :=
    if 0 < original.length then pctDouble processed.length original.length
    else 0
  original_lines := original.count '\n' + 1
  processed_lines := processed.count '\n' + 1

/-! ## Trace recorder (`scripts/06_capture_traces.py` and
`scripts/07_generate_example_traces.py`) -/

/-- A document returned by the retriever: its score (a float, modelled as an
exact rational), its content, and the metadata fields the recorder reads. -/
structure Doc where
  score : ℚ
  content : List Char
  file_path : Option (List Char)
  source_id : Option (List Char)
  split_id : Option ℕ
  split_idx_start : Option ℕ
  deriving DecidableEq

/-- One recorded retrieved context: the `context_meta` dictionary built from a
document and its 1-based rank (identical in `06_capture_traces.py` lines
279-292 and `07_generate_example_traces.py` lines 230-242). -/
structure Context where
  rank : ℕ
  score : ℚ
  content : List Char
  file_path : List Char
  source_id : Option (List Char)
  split_id : Option ℕ
  split_idx_start : Option ℕ
  deriving DecidableEq

def mkContext (r : ℕ) (d : Doc) : Context where
  rank := r
  score := d.score
  content := d.content
  file_path := d.file_path.getD ("unknown".data)
  source_id := d.source_id
  split_id := d.split_id
  split_idx_start := d.split_idx_start

/-- `for rank, doc in enumerate(docs, 1)` building the context list. -/
def mkContextsFrom : ℕ → List Doc → List Context
  | _, [] => []
  | r, d :: ds => mkContext r d :: mkContextsFrom (r + 1) ds

def mkContexts (docs : List Doc) : List Context := mkContextsFrom 1 docs

/-- The `query_trace` dictionary of the interactive session
(`06_capture_traces.py` lines 306-314); the wall-clock fields are outside the
model. -/
structure QueryTrace where
  query_id : ℕ
  question : List Char
  retrieved_contexts : List Context
  generated_answer : Option (List Char)
  num_contexts_retrieved : ℕ
  deriving DecidableEq

def mkQueryTrace (id : ℕ) (q : List Char) (docs : List Doc)
    (ans : Option (List Char)) : QueryTrace where
  query_id := id
  question := q
  retrieved_contexts := mkContexts docs
  generated_answer := ans
  num_contexts_retrieved := (mkContexts docs).length

/-- The outcome of processing one question inside the `try` block after
`query_count += 1`: either the pipeline returns documents and an optional
answer, or some step raises an exception. -/
inductive Outcome where
  | success (docs : List Doc) (answer : Option (List Char))
  | failure
  deriving DecidableEq

/-- One iteration's input to the interactive loop: a quit command
(`quit`/`exit`/`q`), a blank input, a question with its processing outcome, or
a `KeyboardInterrupt`. -/
inductive Event where
  | command
  | blank
  | question (q : List Char) (out : Outcome)
  | interrupt
  deriving DecidableEq

/-- The `while True` loop of `interactive_session_with_traces`
(`06_capture_traces.py` lines 260-324): a command or an interrupt breaks; a
blank input continues; a question increments `query_count`; on success a
`QueryTrace` is appended; on an exception the handler prints the error and
continues without appending anything. -/
def sessionLoop : List Event → ℕ → List QueryTrace → List QueryTrace
  | [], _, qs => qs
  | Event.command :: _, _, qs => qs
  | Event.interrupt :: _, _, qs => qs
  | Event.blank :: es, n, qs => sessionLoop es n qs
  | Event.question q (Outcome.success docs ans) :: es, n, qs =>
      sessionLoop es (n + 1) (qs ++ [mkQueryTrace (n + 1) q docs ans])
  | Event.question _ Outcome.failure :: es, n, qs => sessionLoop es (n + 1) qs

/-- The queries recorded by an interactive session on a given event list
(`query_count` starts at 0, `traces["queries"]` starts empty). -/
def captureSession (events : List Event) : List QueryTrace :=
  sessionLoop events 0 []

/-- The observable end-of-session behaviour (`06_capture_traces.py` lines
326-342). -/
inductive FinalMsg where
  | savedTrace
  | noQueriesCaptured
  deriving DecidableEq

/-- `if traces["queries"]: ...save file... else: print no-queries warning`:
the persisted file content (if any) together with the printed message. -/
def finalizeSession (qs : List QueryTrace) : Option (List QueryTrace) × FinalMsg :=
  if qs.isEmpty then (none, FinalMsg.noQueriesCaptured)
  else (some qs, FinalMsg.savedTrace)

def runCaptureSession (events : List Event) : Option (List QueryTrace) × FinalMsg :=
  finalizeSession (captureSession events)

/-- An entry of `EXAMPLE_QUESTIONS` in `07_generate_example_traces.py`. -/
structure ExQuestion where
  question_id : ℕ
  question : List Char
  category : List Char
  difficulty : List Char
  deriving DecidableEq

/-- A `query_trace` dictionary of the example generator
(`07_generate_example_traces.py` lines 274-284). -/
structure GenQuery where
  query_id : ℕ
  question : List Char
  category : List Char
  difficulty : List Char
  retrieved_contexts : List Context
  generated_answer : Option (List Char)
  num_contexts_retrieved : ℕ
  deriving DecidableEq

/-- The trace-building loop of `generate_traces`
(`07_generate_example_traces.py` lines 206-285): one trace per question, the
query id taken from the question's `question_id` field, given each question's
retrieval result and optional answer (the loop has no error handling — an
exception aborts the whole run before any file is written). -/
def generate_traces (questions : List ExQuestion)
    (results : List (List Doc × Option (List Char))) : List GenQuery :=
  List.zipWith (fun q r =>
    { query_id := q.question_id
      question := q.question
      category := q.category
      difficulty := q.difficulty
      retrieved_contexts := mkContexts r.1
      generated_answer := r.2
      num_contexts_retrieved := (mkContexts r.1).length }) questions results

/-- `EXAMPLE_QUESTIONS` from `07_generate_example_traces.py`. -/
def EXAMPLE_QUESTIONS : List ExQuestion :=
  [⟨1, "What are the password requirements in CJIS Security Policy?".data,
    "authentication".data, "easy".data⟩,
   ⟨2, "How should audit logs be protected according to NIST SP 800-53?".data,
    "audit_logging".data, "medium".data⟩,
   ⟨3, "What encryption is required for data at rest in HIPAA?".data,
    "encryption".data, "easy".data⟩]

/-- Events before the first terminator (quit command or interrupt): exactly
the iterations the loop processes. -/
def isTerminator : Event → Bool
  | Event.command => true
  | Event.interrupt => true
  | _ => false

def isSuccessEvent : Event → Bool
  | Event.question _ (Outcome.success _ _) => true
  | _ => false

def isFailureEvent : Event → Bool
  | Event.question _ Outcome.failure => true
  | _ => false

/-- Number of successfully processed questions in a session. -/
def successCount (events : List Event) : ℕ :=
  (events.takeWhile (fun e => !isTerminator e)).countP isSuccessEvent

/-- The query ids a session assigns, starting from counter value `n`:
a successful question records `n + 1`; a failed question consumes `n + 1`
without recording it. -/
def sessionIds : List Event → ℕ → List ℕ
  | [], _ => []
  | Event.command :: _, _ => []
  | Event.interrupt :: _, _ => []
  | Event.blank :: es, n => sessionIds es n
  | Event.question _ (Outcome.success _ _) :: es, n => (n + 1) :: sessionIds es (n + 1)
  | Event.question _ Outcome.failure :: es, n => sessionIds es (n + 1)

/-! ## Predicates used to state the output guarantees -/

/-- Every pair of adjacent characters of `s` satisfies `good`. -/
def pairsOkBy (good : Char → Char → Bool) : List Char → Bool
  | a :: b :: t => good a b && pairsOkBy good (b :: t)
  | _ => true

/-- `s` contains no two adjacent space characters. -/
def noDouble : List Char → Bool :=
  pairsOkBy (fun a b => !(a == ' ' && b == ' '))

/-- `s` contains three or more consecutive space characters. -/
def threeSpaces : List Char → Bool
  | a :: b :: c :: t => (a == ' ' && b == ' ' && c == ' ') || threeSpaces (b :: c :: t)
  | _ => false

/-- No whitespace character other than `'\n'` stands immediately before a
`'\n'` (together with `lastOk` this says no line of `s` has trailing
whitespace). -/
def pairsOk : List Char → Bool :=
  pairsOkBy (fun a b => !(pyWs a && a != '\n' && b == '\n'))

/-- The last character of `s`, if any, is not a non-newline whitespace
character (the last line of `s` has no trailing whitespace). -/
def lastOk (s : List Char) : Bool :=
  match s.getLast? with
  | none => true
  | some c => !(pyWs c && c != '\n')

/-- A line list contains three or more consecutive empty lines. -/
def threeBlankLines : List (List Char) → Bool
  | a :: b :: c :: t => (a.isEmpty && b.isEmpty && c.isEmpty) || threeBlankLines (b :: c :: t)
  | _ => false

/-- Number of ASCII alphanumeric characters of `s`. -/
def countAlnum (s : List Char) : ℕ := s.countP isAlnumChar

/-- The maximal alphanumeric runs of `s` (its alphanumeric tokens). -/
def alnumTokens : List Char → List (List Char)
  | [] => []
  | c :: r =>
    let ts := alnumTokens r
    if isAlnumChar c then
      match r with
      | r0 :: _ => if isAlnumChar r0 then (c :: ts.headD []) :: ts.tail else [c] :: ts
      | [] => [c] :: ts
    else ts

/-- Tokens that the designed artifact classes (page-number lines,
`Page X of Y` lines, dot leaders, trailing line-end numbers) can delete:
purely numeric tokens and the case-insensitive words `page` and `of`. -/
def designedArtifactToken (t : List Char) : Bool :=
  t.all isDigitChar || t.map Char.toLower == "page".data || t.map Char.toLower == "of".data

/-- A fourteen-line digit-free document whose middle contains space-only
lines between two words; used to exhibit three consecutive blank lines in the
output of `preprocess_text`. -/
def blankRunDoc : List Char :=
  ("alphaalpha\nbetabeta\ngammagamma\ndeltadelta\nepsilon\nword\n \n \n \n" ++
   "word\nzetazeta\netaeta\nthetatheta\niotaiota").data

/-- A retrieved document used in concrete trace examples. -/
def exampleDoc : Doc where
  score := 9 / 10
  content := "PR.AC-1: Identities and credentials are managed.".data
  file_path := some "data/processed/nist_csf.txt".data
  source_id := some "nist_csf".data
  split_id := some 4
  split_idx_start := some 1024

/-- A second retrieved document with a lower score. -/
def exampleDoc2 : Doc where
  score := 7 / 10
  content := "Audit logs shall be protected from unauthorized access.".data
  file_path := none
  source_id := none
  split_id := none
  split_idx_start := none

/-! ## Helper lemmas about the session loop -/

theorem sessionLoop_length (es : List Event) : ∀ n qs,
    (sessionLoop es n qs).length = qs.length + successCount es := by
  induction es with
  | nil => intro n qs; simp [sessionLoop, successCount]
  | cons e es ih =>
    intro n qs
    cases e with
    | command => simp [sessionLoop, successCount, List.takeWhile_cons, isTerminator]
    | interrupt => simp [sessionLoop, successCount, List.takeWhile_cons, isTerminator]
    | blank =>
      simp only [sessionLoop, ih, successCount, List.takeWhile_cons, isTerminator,
        Bool.not_false]
      simp [List.countP_cons, isSuccessEvent]
    | question q out =>
      cases out with
      | success docs ans =>
        simp only [sessionLoop, ih, successCount, List.takeWhile_cons, isTerminator,
          Bool.not_false, List.length_append]
        simp [List.countP_cons, isSuccessEvent]
        omega
      | failure =>
        simp only [sessionLoop, ih, successCount, List.takeWhile_cons, isTerminator,
          Bool.not_false]
        simp [List.countP_cons, isSuccessEvent]

theorem sessionLoop_num_contexts (es : List Event) : ∀ n qs,
    (∀ q ∈ qs, q.num_contexts_retrieved = q.retrieved_contexts.length) →
    ∀ q ∈ sessionLoop es n qs, q.num_contexts_retrieved = q.retrieved_contexts.length := by
  induction es with
  | nil => intro n qs h; simpa [sessionLoop] using h
  | cons e es ih =>
    intro n qs h
    cases e with
    | command => simpa [sessionLoop] using h
    | interrupt => simpa [sessionLoop] using h
    | blank => exact ih n qs h
    | question q out =>
      cases out with
      | success docs ans =>
        refine ih (n + 1) _ ?_
        intro q hq
        rcases List.mem_append.1 hq with h1 | h1
        · exact h q h1
        · rcases List.mem_singleton.1 h1 with rfl
          rfl
      | failure => exact ih (n + 1) qs h

theorem sessionLoop_chain (es : List Event) : ∀ n qs,
    List.Chain' (fun a b => a.query_id < b.query_id) qs →
    (∀ q ∈ qs, q.query_id ≤ n) →
    List.Chain' (fun a b => a.query_id < b.query_id) (sessionLoop es n qs) := by
  induction es with
  | nil => intro n qs h _; simpa [sessionLoop] using h
  | cons e es ih =>
    intro n qs h hle
    cases e with
    | command => simpa [sessionLoop] using h
    | interrupt => simpa [sessionLoop] using h
    | blank => exact ih n qs h hle
    | question q out =>
      cases out with
      | success docs ans =>
        refine ih (n + 1) _ ?_ ?_
        · refine List.chain'_append.2 ⟨h, List.chain'_singleton _, ?_⟩
          intro x hx y hy
          simp only [List.head?_cons, Option.mem_def, Option.some.injEq] at hy
          subst hy
          have hxmem : x ∈ qs := List.mem_of_mem_getLast? hx
          have := hle x hxmem
          simpa [mkQueryTrace] using Nat.lt_succ_of_le this
        · intro q hq
          rcases List.mem_append.1 hq with h1 | h1
          · exact Nat.le_succ_of_le (hle q h1)
          · rcases List.mem_singleton.1 h1 with rfl
            simp [mkQueryTrace]
      | failure =>
        refine ih (n + 1) qs h ?_
        intro q hq
        exact Nat.le_succ_of_le (hle q hq)

theorem sessionLoop_ids_no_failure (es : List Event) : ∀ n qs,
    (∀ e ∈ es.takeWhile (fun e => !isTerminator e), isFailureEvent e = false) →
    (sessionLoop es n qs).map (fun q => q.query_id) =
      qs.map (fun q => q.query_id) ++ List.range' (n + 1) (successCount es) := by
  induction es with
  | nil => intro n qs _; simp [sessionLoop, successCount]
  | cons e es ih =>
    intro n qs hnf
    cases e with
    | command => simp [sessionLoop, successCount, List.takeWhile_cons, isTerminator]
    | interrupt => simp [sessionLoop, successCount, List.takeWhile_cons, isTerminator]
    | blank =>
      have hnf' : ∀ e ∈ es.takeWhile (fun e => !isTerminator e), isFailureEvent e = false := by
        intro e he
        refine hnf e ?_
        simpa [List.takeWhile_cons, isTerminator] using List.mem_cons_of_mem _ he
      rw [sessionLoop, ih n qs hnf']
      simp [successCount, List.takeWhile_cons, isTerminator, List.countP_cons, isSuccessEvent]
    | question q out =>
      cases out with
      | success docs ans =>
        have hnf' : ∀ e ∈ es.takeWhile (fun e => !isTerminator e), isFailureEvent e = false := by
          intro e he
          refine hnf e ?_
          simpa [List.takeWhile_cons, isTerminator] using List.mem_cons_of_mem _ he
        rw [sessionLoop, ih (n + 1) _ hnf']
        have hcount : successCount (Event.question q (Outcome.success docs ans) :: es) =
            successCount es + 1 := by
          simp [successCount, List.takeWhile_cons, isTerminator, List.countP_cons, isSuccessEvent]
        rw [hcount, List.range'_succ]
        simp [mkQueryTrace]
      | failure =>
        exfalso
        have : isFailureEvent (Event.question q Outcome.failure) = false := by
          refine hnf _ ?_
          simp [List.takeWhile_cons, isTerminator]
        simp [isFailureEvent] at this

/-! ## Claim theorems: trace recorder -/

/-- C3, counterexample.  The claim asserts that when processing a question
raises an error, a query record with an `error` field is still appended to the
trace.  In `06_capture_traces.py` the `except` handler only prints the error
and continues: a session consisting of one failing question appends no record
at all (the trace schema has no error field anywhere). -/
theorem c3_counterexample :
    captureSession [Event.question ("What is CJIS?".data) Outcome.failure,
      Event.command] = [] := by
  rfl

/-- C3, amended.  An error while retrieving or generating does not abort the
session: the exception is caught and the loop continues with the next
question; however no query record is appended for the failed question (so the
number of recorded queries always equals the number of successfully processed
questions before the first quit command or interrupt, whether or not failures
occurred in between). -/
theorem c3_error_handling :
    (∀ q es n qs, sessionLoop (Event.question q Outcome.failure :: es) n qs =
        sessionLoop es (n + 1) qs) ∧
    (∀ events : List Event, (captureSession events).length = successCount events) := by
  constructor
  · intro q es n qs
    rfl
  · intro events
    simpa using sessionLoop_length events 0 []

/-- C4, counterexample.  A session in which the first question fails and the
second succeeds records the second question with `query_id = 2` at index 0:
query ids of a persisted session are not gap-free when some query failed. -/
theorem c4_counterexample :
    (captureSession [Event.question ("q1".data) Outcome.failure,
        Event.question ("q2".data) (Outcome.success [exampleDoc] (some "answer".data)),
        Event.command]).map (fun q => q.query_id) = [2] ∧
    ¬ (∀ i (h : i < (captureSession [Event.question ("q1".data) Outcome.failure,
        Event.question ("q2".data) (Outcome.success [exampleDoc] (some "answer".data)),
        Event.command]).length),
        ((captureSession [Event.question ("q1".data) Outcome.failure,
          Event.question ("q2".data) (Outcome.success [exampleDoc] (some "answer".data)),
          Event.command]).get ⟨i, h⟩).query_id = i + 1) := by
  constructor
  · rfl
  · intro h
    have h0 := h 0 (by decide)
    revert h0
    decide

/-- C4, amended.  Query ids in a persisted interactive session are strictly
increasing, and they are gap-free (`queries[i].query_id = i + 1`) whenever no
question of the session failed; a failed question consumes an id without
appending a record, leaving a gap.  The example generator stamps
`query_id` from the `question_id` fields of `EXAMPLE_QUESTIONS`, which are
`1, 2, 3` in order. -/
theorem c4_query_ids :
    (∀ events : List Event,
      List.Chain' (fun a b => a.query_id < b.query_id) (captureSession events)) ∧
    (∀ events : List Event,
      (∀ e ∈ events.takeWhile (fun e => !isTerminator e), isFailureEvent e = false) →
      (captureSession events).map (fun q => q.query_id) =
        List.range' 1 (successCount events)) ∧
    (∀ results, results.length = 3 →
      (generate_traces EXAMPLE_QUESTIONS results).map (fun g => g.query_id) = [1, 2, 3]) := by
  refine ⟨?_, ?_, ?_⟩
  · intro events
    exact sessionLoop_chain events 0 [] List.chain'_nil (by simp)
  · intro events h
    simpa using sessionLoop_ids_no_failure events 0 [] h
  · intro results h
    rcases List.length_eq_three.1 h with ⟨a, b, c, rfl⟩
    rfl

/-- C4, witness for the amended theorem. -/
theorem c4_query_ids_witness :
    (captureSession [Event.question ("q1".data)
        (Outcome.success [exampleDoc, exampleDoc2] none),
      Event.question ("q2".data) (Outcome.success [] none),
      Event.command]).map (fun q => q.query_id) =
        List.range' 1 (successCount [Event.question ("q1".data)
          (Outcome.success [exampleDoc, exampleDoc2] none),
          Event.question ("q2".data) (Outcome.success [] none), Event.command]) ∧
    (generate_traces EXAMPLE_QUESTIONS [([exampleDoc], some "a1".data),
      ([exampleDoc2], none), ([], none)]).map (fun g => g.query_id) = [1, 2, 3] :=
  ⟨c4_query_ids.2.1 _ (by decide), c4_query_ids.2.2 _ (by decide)⟩

/-- C8.  The recorder preserves retrieval order: the recorded ranks are
`1, 2, …, n` in positional order, and the recorded contents, scores and
source ids are exactly those of the retrieved documents in the order
received — the context list is built by `enumerate(result_documents, 1)`
with no sorting (identically in `06_capture_traces.py` and
`07_generate_example_traces.py`). -/
theorem c8_order_preserved (docs : List Doc) :
    (mkContexts docs).map (fun c => c.rank) = List.range' 1 docs.length ∧
    (mkContexts docs).map (fun c => c.content) = docs.map (fun d => d.content) ∧
    (mkContexts docs).map (fun c => c.score) = docs.map (fun d => d.score) ∧
    (mkContexts docs).map (fun c => c.source_id) = docs.map (fun d => d.source_id) := by
  have key : ∀ (ds : List Doc) (r : ℕ),
      (mkContextsFrom r ds).map (fun c => c.rank) = List.range' r ds.length ∧
      (mkContextsFrom r ds).map (fun c => c.content) = ds.map (fun d => d.content) ∧
      (mkContextsFrom r ds).map (fun c => c.score) = ds.map (fun d => d.score) ∧
      (mkContextsFrom r ds).map (fun c => c.source_id) = ds.map (fun d => d.source_id) := by
    intro ds
    induction ds with
    | nil => intro r; simp [mkContextsFrom]
    | cons d ds ih =>
      intro r
      rcases ih (r + 1) with ⟨h1, h2, h3, h4⟩
      refine ⟨?_, ?_, ?_, ?_⟩ <;>
        simp [mkContextsFrom, mkContext, h1, h2, h3, h4, List.range'_succ]
  exact key docs 1

/-- C10.  Every persisted query trace — in interactive sessions and in the
example generator alike — has `num_contexts_retrieved` equal to the length of
its `retrieved_contexts` list. -/
theorem c10_num_contexts :
    (∀ (events : List Event), ∀ q ∈ captureSession events,
      q.num_contexts_retrieved = q.retrieved_contexts.length) ∧
    (∀ (questions : List ExQuestion) (results : List (List Doc × Option (List Char))),
      ∀ g ∈ generate_traces questions results,
        g.num_contexts_retrieved = g.retrieved_contexts.length) := by
  constructor
  · intro events
    exact sessionLoop_num_contexts events 0 [] (by simp)
  · intro questions
    induction questions with
    | nil => intro results g hg; simp [generate_traces] at hg
    | cons q qs ih =>
      intro results g hg
      cases results with
      | nil => simp [generate_traces] at hg
      | cons r rs =>
        simp only [generate_traces, List.zipWith_cons_cons, List.mem_cons] at hg
        rcases hg with rfl | hg
        · rfl
        · exact ih rs g hg

/-- C10, witness. -/
theorem c10_num_contexts_witness :
    mkQueryTrace 1 ("q".data) [exampleDoc] none ∈
      captureSession [Event.question ("q".data) (Outcome.success [exampleDoc] none),
        Event.command] ∧
    (mkQueryTrace 1 ("q".data) [exampleDoc] none).num_contexts_retrieved =
      (mkQueryTrace 1 ("q".data) [exampleDoc] none).retrieved_contexts.length :=
  ⟨List.mem_singleton.2 rfl,
   c10_num_contexts.1
     [Event.question ("q".data) (Outcome.success [exampleDoc] none), Event.command]
     _ (List.mem_singleton.2 rfl)⟩

/-- C9.  A session that ends with zero recorded queries (in particular, one
whose questions all failed) writes no trace file, and the skip is observable:
the no-queries warning is printed instead of the save message. -/
theorem c9_empty_session (events : List Event) (h : successCount events = 0) :
    runCaptureSession events = (none, FinalMsg.noQueriesCaptured) := by
  have hlen : (captureSession events).length = 0 := by
    simpa [h] using sessionLoop_length events 0 []
  have hnil : captureSession events = [] := List.eq_nil_of_length_eq_zero hlen
  simp [runCaptureSession, finalizeSession, hnil]

/-- C9, witness: a session whose only question fails persists nothing and
prints the warning. -/
theorem c9_empty_session_witness :
    successCount [Event.question ("q".data) Outcome.failure, Event.interrupt] = 0 ∧
    runCaptureSession [Event.question ("q".data) Outcome.failure, Event.interrupt] =
      (none, FinalMsg.noQueriesCaptured) :=
  ⟨by decide, c9_empty_session _ (by decide)⟩

/-! ## The IEEE-double model: boundary-case lemmas -/

theorem rheDiv_zero (d : ℕ) : rheDiv 0 d = 0 := by
  unfold rheDiv
  simp only [Nat.zero_mod, Nat.mul_zero, Nat.zero_div]
  split
  · rfl
  · split
    · omega
    · simp

theorem flPair_zero_fst (d : ℕ) : (flPair 0 d).1 = 0 := by
  unfold flPair
  split
  · show rheDiv (0 * 2 ^ (flExp 0 d).toNat) d = 0
    rw [Nat.zero_mul, rheDiv_zero]
  · show rheDiv 0 (d * 2 ^ (-flExp 0 d).toNat) = 0
    rw [rheDiv_zero]

theorem flDy_zero_fst (d : ℕ) : (flDy 0 d).1 = 0 := by
  unfold flDy
  rw [if_pos (le_refl (0 : ℤ))]
  show ((flPair (0 : ℤ).toNat d).1 : ℤ) = 0
  rw [Int.toNat_zero, flPair_zero_fst]
  rfl

theorem dyNum_eq_zero {x : ℤ × ℤ} (h : x.1 = 0) : dyNum x = 0 := by
  unfold dyNum
  rw [h]
  split
  · rw [zero_mul]
  · rfl

theorem dyDen_pos (x : ℤ × ℤ) : 0 < dyDen x := by
  unfold dyDen
  split
  · exact Nat.one_pos
  · exact pow_pos (by norm_num) _

theorem flLog_self {b : ℕ} : flLog b b = 0 := by
  unfold flLog
  rw [if_pos (le_refl _)]
  exact sub_self _

theorem flExp_self {b : ℕ} : flExp b b = 52 := by
  unfold flExp
  rw [flLog_self]
  norm_num

theorem flPair_self {b : ℕ} (hb : 0 < b) : flPair b b = (2 ^ 52, -52) := by
  unfold flPair
  rw [flExp_self]
  rw [if_pos (by norm_num : (0 : ℤ) ≤ 52)]
  have h1 : rheDiv (b * 2 ^ ((52 : ℤ)).toNat) b = 2 ^ 52 := by
    have ht : ((52 : ℤ)).toNat = 52 := rfl
    rw [ht]
    unfold rheDiv
    rw [Nat.mul_mod_right]
    rw [if_pos (by omega : 2 * 0 < b)]
    exact Nat.mul_div_cancel_left _ hb
  rw [h1]

theorem flDy_self {b : ℕ} (hb : 0 < b) :
    flDy (b : ℤ) b = (((2 ^ 52 : ℕ) : ℤ), -52) := by
  unfold flDy
  rw [if_pos (Int.natCast_nonneg b)]
  rw [Int.toNat_natCast]
  rw [flPair_self hb]

theorem oneSub_flDy_zero (o : ℕ) :
    oneSubDy (flDy 0 o) = (((2 ^ 52 : ℕ) : ℤ), -52) := by
  unfold oneSubDy
  rw [dyNum_eq_zero (flDy_zero_fst o), sub_zero]
  exact flDy_self (dyDen_pos _)

/-! ## Claim theorems: statistics -/

/-- C5, counterexample.  For empty input the stats record does not have all
fields zero: both line counts are `newline_count + 1 = 1`. -/
theorem c5_counterexample :
    (calculate_stats [] (preprocess_text [])).original_lines = 1 ∧
    (calculate_stats [] (preprocess_text [])).processed_lines = 1 ∧
    (calculate_stats [] (preprocess_text [])).original_lines ≠ 0 := by
  decide

/-- C5, amended.  Normalizing the empty string succeeds and returns the empty
string; in the resulting stats record the lengths, the character reduction and
the percentage reduction are zero, while both line counts equal `1`
(`calculate_stats` counts lines as `newline_count + 1`). -/
theorem c5_empty_input :
    preprocess_text [] = [] ∧
    calculate_stats [] (preprocess_text []) =
      { original_length := 0, processed_length := 0, reduction_chars := 0,
        reduction_percent := 0, original_lines := 1, processed_lines := 1 } := by
  constructor
  · rfl
  · decide

set_option maxRecDepth 100000 in
/-- C6, counterexample.  The recorded percentage is computed in IEEE-754
double arithmetic and does not satisfy the claimed exact identity: for an
original of 160 characters processed to 87 characters the double value of
`(1 - 87/160) * 100` is slightly above `45.625`, so the program rounds it up
to `45.63`, while the exact value `45.625` of the claimed formula rounds
half-to-even down to `45.62`. -/
theorem c6_counterexample :
    (calculate_stats (List.replicate 160 'a')
        (List.replicate 87 'a')).reduction_percent ≠
      pyRound2 ((((List.replicate 160 'a').length : ℚ) -
        ((List.replicate 87 'a').length : ℚ)) /
          ((List.replicate 160 'a').length : ℚ) * 100) := by
  have hx : ((((List.replicate 160 'a').length : ℚ) -
      ((List.replicate 87 'a').length : ℚ)) /
        ((List.replicate 160 'a').length : ℚ) * 100) = mkRat 365 8 := by
    rw [Rat.mkRat_eq_div]
    norm_num
  rw [hx]
  decide

set_option maxRecDepth 100000 in
/-- C6, amended.  `reduction_percent` is an IEEE-754 double, so the claimed
exact identity fails in general (see the counterexample).  What does hold:
the percentage is `0` for an empty original; in the boundary cases where
every intermediate double is exact — processed empty (giving `100`) or
processed exactly as long as the original (giving `0`) — the recorded value
equals the claimed formula; and the original line count is the newline count
plus one. -/
theorem c6_stats_formula (original processed : List Char) :
    (original.length = 0 →
      (calculate_stats original processed).reduction_percent = 0) ∧
    (0 < original.length → processed.length = 0 →
      (calculate_stats original processed).reduction_percent =
        pyRound2 (((original.length : ℚ) - (processed.length : ℚ)) /
          (original.length : ℚ) * 100)) ∧
    (0 < original.length → processed.length = original.length →
      (calculate_stats original processed).reduction_percent =
        pyRound2 (((original.length : ℚ) - (processed.length : ℚ)) /
          (original.length : ℚ) * 100)) ∧
    (calculate_stats original processed).original_lines =
      original.count '\n' + 1 := by
  refine ⟨?_, ?_, ?_, rfl⟩
  · intro h
    simp [calculate_stats, h]
  · intro hpos hp
    have ho : ((original.length : ℚ)) ≠ 0 := by
      exact_mod_cast Nat.pos_iff_ne_zero.1 hpos
    simp only [calculate_stats, if_pos hpos, hp, Nat.cast_zero]
    unfold pctDouble
    simp only [Nat.cast_zero]
    rw [oneSub_flDy_zero]
    rw [sub_zero, div_self ho, one_mul]
    decide
  · intro hpos hp
    simp only [calculate_stats, if_pos hpos, hp]
    unfold pctDouble
    rw [flDy_self hpos]
    rw [sub_self, zero_div, zero_mul]
    decide

/-- C6, witness: the amended boundary cases at concrete inputs. -/
theorem c6_stats_formula_witness :
    (calculate_stats ("abcd".data) ([] : List Char)).reduction_percent =
      pyRound2 ((("abcd".data.length : ℚ) - (([] : List Char).length : ℚ)) /
        ("abcd".data.length : ℚ) * 100) ∧
    (calculate_stats ("ab".data) ("cd".data)).reduction_percent =
      pyRound2 ((("ab".data.length : ℚ) - ("cd".data.length : ℚ)) /
        ("ab".data.length : ℚ) * 100) :=
  ⟨(c6_stats_formula ("abcd".data) ([] : List Char)).2.1 (by decide) rfl,
   (c6_stats_formula ("ab".data) ("cd".data)).2.2.1 (by decide) rfl⟩

/-! ## Generic list lemmas -/

theorem dropWhile_head_not {p : Char → Bool} {l : List Char} {c : Char} {cs : List Char}
    (h : l.dropWhile p = c :: cs) : p c = false := by
  induction l with
  | nil => simp at h
  | cons a l ih =>
    rw [List.dropWhile_cons] at h
    by_cases hp : p a = true
    · exact ih (by simpa [hp] using h)
    · rw [if_neg (by simp [hp])] at h
      cases h
      simpa using hp

theorem dropWhile_eq_self_of_head {p : Char → Bool} {l : List Char}
    (h : ∀ c cs, l = c :: cs → p c = false) : l.dropWhile p = l := by
  cases l with
  | nil => rfl
  | cons a l => rw [List.dropWhile_cons, if_neg (by simp [h a l rfl])]

theorem head?_dropWhile_not {p : Char → Bool} {l : List Char} {c : Char}
    (h : (l.dropWhile p).head? = some c) : p c = false := by
  cases hd : l.dropWhile p with
  | nil => rw [hd] at h; simp at h
  | cons a t =>
    rw [hd] at h
    simp only [List.head?_cons, Option.some.injEq] at h
    subst h
    exact dropWhile_head_not hd

theorem mem_takeWhile_imp_mem {p : Char → Bool} {l : List Char} {x : Char}
    (h : x ∈ l.takeWhile p) : x ∈ l := by
  have h2 : l = l.takeWhile p ++ l.dropWhile p := (List.takeWhile_append_dropWhile p l).symm
  rw [h2]
  exact List.mem_append_left _ h

theorem takeWhile_nonempty_head {p : Char → Bool} {l : List Char} {c : Char} {cs : List Char}
    (h : l.takeWhile p = c :: cs) : p c = true ∧ c ∈ l :=
  ⟨List.mem_takeWhile_imp (h ▸ List.mem_cons_self c cs),
   mem_takeWhile_imp_mem (h ▸ List.mem_cons_self c cs)⟩

/-! ## Strip lemmas -/

theorem lstrip_idem (s : List Char) : lstrip (lstrip s) = lstrip s :=
  dropWhile_eq_self_of_head (fun _ _ h => dropWhile_head_not h)

theorem lstrip_decomp (s : List Char) : s = s.takeWhile pyWs ++ lstrip s :=
  (List.takeWhile_append_dropWhile pyWs s).symm

theorem getLast?_reverse' (s : List Char) : s.reverse.getLast? = s.head? := by
  conv_rhs => rw [← List.reverse_reverse s]
  rw [List.head?_reverse]

theorem rstrip_getLast? {s : List Char} {c : Char} (h : (rstrip s).getLast? = some c) :
    pyWs c = false := by
  unfold rstrip at h
  rw [getLast?_reverse'] at h
  exact head?_dropWhile_not h

theorem rstrip_eq_self_of_getLast? {s : List Char}
    (h : ∀ c, s.getLast? = some c → pyWs c = false) : rstrip s = s := by
  unfold rstrip
  have : s.reverse.dropWhile pyWs = s.reverse := by
    refine dropWhile_eq_self_of_head ?_
    intro c cs hc
    refine h c ?_
    rw [← List.head?_reverse, hc, List.head?_cons]
  rw [this, List.reverse_reverse]

theorem rstrip_decomp (s : List Char) :
    ∃ w, s = rstrip s ++ w ∧ ∀ c ∈ w, pyWs c = true := by
  refine ⟨(s.reverse.takeWhile pyWs).reverse, ?_, ?_⟩
  · conv_lhs => rw [← List.reverse_reverse s]
    conv_lhs => rw [← List.takeWhile_append_dropWhile pyWs s.reverse]
    rw [List.reverse_append]
    rfl
  · intro c hc
    rw [List.mem_reverse] at hc
    exact List.mem_takeWhile_imp hc

theorem mem_rstrip {s : List Char} {x : Char} (h : x ∈ rstrip s) : x ∈ s := by
  obtain ⟨w, hw, -⟩ := rstrip_decomp s
  rw [hw]
  exact List.mem_append_left _ h

theorem getLast?_lstrip {s : List Char} (h : lstrip s ≠ []) :
    (lstrip s).getLast? = s.getLast? := by
  conv_rhs => rw [lstrip_decomp s]
  rw [List.getLast?_append_of_ne_nil _ h]

theorem strip_getLast? {s : List Char} {c : Char} (h : (strip s).getLast? = some c) :
    pyWs c = false := by
  unfold strip at h
  by_cases hn : lstrip (rstrip s) = []
  · rw [hn] at h; simp at h
  · rw [getLast?_lstrip hn] at h
    exact rstrip_getLast? h

theorem rstrip_strip (s : List Char) : rstrip (strip s) = strip s :=
  rstrip_eq_self_of_getLast? (fun _ h => strip_getLast? h)

theorem lstrip_strip (s : List Char) : lstrip (strip s) = strip s := by
  unfold strip
  rw [lstrip_idem]

theorem pyWs_not_alnum {c : Char} (h : pyWs c = true) : isAlnumChar c = false := by
  by_cases hr : '\u2000' ≤ c ∧ c ≤ '\u200a'
  · have hne : ¬ isAlnumChar c = true := by
      unfold isAlnumChar isDigitChar
      simp only [Bool.or_eq_true, Bool.and_eq_true, decide_eq_true_eq, not_or]
      exact ⟨⟨fun hc => absurd (le_trans hr.1 hc.2) (by decide),
              fun hc => absurd (le_trans hr.1 hc.2) (by decide)⟩,
             fun hc => absurd (le_trans hr.1 hc.2) (by decide)⟩
    simpa using hne
  · unfold pyWs at h
    simp only [Bool.or_eq_true, beq_iff_eq, Bool.and_eq_true, decide_eq_true_eq] at h
    rcases h with (((((((((((((((((h|h)|h)|h)|h)|h)|h)|h)|h)|h)|h)|h)|h)|h)|h)|h)|h)|h)|h
    all_goals first
      | (exact absurd h hr)
      | (subst h; decide)

theorem countP_eq_zero_of_ws {p : Char → Bool} (hp : ∀ c, pyWs c = true → p c = false)
    {l : List Char} (h : ∀ c ∈ l, pyWs c = true) : l.countP p = 0 := by
  rw [List.countP_eq_zero]
  intro c hc
  simp [hp c (h c hc)]

theorem countAlnum_lstrip (s : List Char) : countAlnum (lstrip s) = countAlnum s := by
  conv_rhs => rw [lstrip_decomp s]
  unfold countAlnum
  rw [List.countP_append]
  rw [countP_eq_zero_of_ws (fun c h => pyWs_not_alnum h)
    (fun c hc => List.mem_takeWhile_imp hc)]
  omega

theorem countAlnum_rstrip (s : List Char) : countAlnum (rstrip s) = countAlnum s := by
  obtain ⟨w, hw, hmem⟩ := rstrip_decomp s
  conv_rhs => rw [hw]
  unfold countAlnum
  rw [List.countP_append, countP_eq_zero_of_ws (fun c h => pyWs_not_alnum h) hmem]
  omega

theorem countAlnum_strip (s : List Char) : countAlnum (strip s) = countAlnum s := by
  unfold strip
  rw [countAlnum_lstrip, countAlnum_rstrip]

/-! ## Lemmas about the space-run collapse -/

theorem csp_cons (b : Bool) (c : Char) (rest : List Char) :
    collapseSpacesAux b (c :: rest) =
      if c = ' ' then
        (if b then collapseSpacesAux true rest else ' ' :: collapseSpacesAux true rest)
      else c :: collapseSpacesAux false rest := rfl

theorem csp_true_head_ne {s : List Char} {c : Char} {cs : List Char}
    (h : collapseSpacesAux true s = c :: cs) : c ≠ ' ' := by
  induction s generalizing cs with
  | nil => simp [collapseSpacesAux] at h
  | cons a s ih =>
    rw [csp_cons] at h
    by_cases ha : a = ' '
    · rw [if_pos ha, if_pos rfl] at h
      exact ih h
    · rw [if_neg ha] at h
      cases h
      exact ha

theorem csp_false_head_space {s : List Char}
    (h : (collapseSpacesAux false s).head? = some ' ') : s.head? = some ' ' := by
  cases s with
  | nil => simp [collapseSpacesAux] at h
  | cons a s =>
    rw [csp_cons] at h
    by_cases ha : a = ' '
    · rw [ha]; rfl
    · rw [if_neg ha] at h
      simp only [List.head?_cons, Option.some.injEq] at h
      exact absurd h ha

theorem pairsOkBy_cons₂ (g : Char → Char → Bool) (a b : Char) (t : List Char) :
    pairsOkBy g (a :: b :: t) = (g a b && pairsOkBy g (b :: t)) := rfl

theorem pairsOkBy_tail {g : Char → Char → Bool} {a : Char} {t : List Char}
    (h : pairsOkBy g (a :: t) = true) : pairsOkBy g t = true := by
  cases t with
  | nil => rfl
  | cons b t' =>
    rw [pairsOkBy_cons₂, Bool.and_eq_true] at h
    exact h.2

theorem pairsOkBy_cons_of {g : Char → Char → Bool} {a : Char} {t : List Char}
    (h : pairsOkBy g t = true) (hh : ∀ d, t.head? = some d → g a d = true) :
    pairsOkBy g (a :: t) = true := by
  cases t with
  | nil => rfl
  | cons b t' =>
    rw [pairsOkBy_cons₂, Bool.and_eq_true]
    exact ⟨hh b rfl, h⟩

theorem pairsOkBy_append_left {g : Char → Char → Bool} :
    ∀ {x y : List Char}, pairsOkBy g (x ++ y) = true → pairsOkBy g x = true := by
  intro x
  induction x with
  | nil => intro y _; rfl
  | cons a x ih =>
    intro y h
    cases x with
    | nil => rfl
    | cons b x' =>
      rw [List.cons_append, List.cons_append, pairsOkBy_cons₂, Bool.and_eq_true] at h
      rw [pairsOkBy_cons₂, Bool.and_eq_true]
      exact ⟨h.1, ih (by simpa using h.2)⟩

theorem pairsOkBy_append_right {g : Char → Char → Bool} :
    ∀ {x y : List Char}, pairsOkBy g (x ++ y) = true → pairsOkBy g y = true := by
  intro x
  induction x with
  | nil => intro y h; simpa using h
  | cons a x ih =>
    intro y h
    rw [List.cons_append] at h
    exact ih (pairsOkBy_tail h)

theorem pairsOkBy_append_of {g : Char → Char → Bool} :
    ∀ {x y : List Char}, pairsOkBy g x = true → pairsOkBy g y = true →
    (∀ c, x.getLast? = some c → ∀ d, y.head? = some d → g c d = true) →
    pairsOkBy g (x ++ y) = true := by
  intro x
  induction x with
  | nil => intro y _ hy _; simpa using hy
  | cons a x ih =>
    intro y hx hy hj
    cases x with
    | nil =>
      refine pairsOkBy_cons_of hy ?_
      intro d hd
      exact hj a rfl d hd
    | cons b x' =>
      rw [List.cons_append, List.cons_append, pairsOkBy_cons₂, Bool.and_eq_true]
      rw [pairsOkBy_cons₂, Bool.and_eq_true] at hx
      refine ⟨hx.1, ?_⟩
      have := ih hx.2 hy (fun c hc d hd => hj c (by rw [List.getLast?_cons_cons]; exact hc) d hd)
      simpa using this

theorem noDouble_cons_of_left {a : Char} {t : List Char} (ha : a ≠ ' ')
    (h : noDouble t = true) : noDouble (a :: t) = true := by
  refine pairsOkBy_cons_of h ?_
  intro d _
  simp [ha]

theorem noDouble_tail {a : Char} {t : List Char} (h : noDouble (a :: t) = true) :
    noDouble t = true := pairsOkBy_tail h

theorem noDouble_csp (s : List Char) : ∀ b, noDouble (collapseSpacesAux b s) = true := by
  induction s with
  | nil => intro b; rfl
  | cons a s ih =>
    intro b
    rw [csp_cons]
    by_cases ha : a = ' '
    · rw [if_pos ha]
      cases b with
      | true => exact ih true
      | false =>
        simp only [if_false, Bool.false_eq_true]
        refine pairsOkBy_cons_of (ih true) ?_
        intro d hd
        have hne : d ≠ ' ' := by
          cases heq : collapseSpacesAux true s with
          | nil => rw [heq] at hd; simp at hd
          | cons c cs =>
            rw [heq] at hd
            simp only [List.head?_cons, Option.some.injEq] at hd
            subst hd
            exact csp_true_head_ne heq
        simp [hne]
    · rw [if_neg ha]
      exact noDouble_cons_of_left ha (ih false)

theorem countAlnum_csp : ∀ (s : List Char) (b : Bool),
    countAlnum (collapseSpacesAux b s) = countAlnum s := by
  intro s
  induction s with
  | nil => intro b; rfl
  | cons a s ih =>
    intro b
    rw [csp_cons]
    unfold countAlnum at ih ⊢
    by_cases ha : a = ' '
    · rw [if_pos ha]
      subst ha
      cases b with
      | true =>
        rw [if_pos rfl, ih true, List.countP_cons]
        simp [isAlnumChar, isDigitChar]
      | false =>
        simp only [if_false, Bool.false_eq_true]
        rw [List.countP_cons, List.countP_cons, ih true]
    · rw [if_neg ha, List.countP_cons, List.countP_cons, ih false]

/-! ## Lemmas about the newline-run collapse -/

theorem cnl_cons (k : Nat) (c : Char) (rest : List Char) :
    collapseNewlinesAux k (c :: rest) =
      if c = '\n' then
        (if k < 2 then '\n' :: collapseNewlinesAux (k + 1) rest
         else collapseNewlinesAux (k + 1) rest)
      else c :: collapseNewlinesAux 0 rest := rfl

theorem mem_cnl : ∀ {s : List Char} {k : Nat} {x : Char},
    x ∈ collapseNewlinesAux k s → x ∈ s := by
  intro s
  induction s with
  | nil => intro k x h; simp [collapseNewlinesAux] at h
  | cons a s ih =>
    intro k x h
    rw [cnl_cons] at h
    by_cases ha : a = '\n'
    · rw [if_pos ha] at h
      by_cases hk : k < 2
      · rw [if_pos hk] at h
        rcases List.mem_cons.1 h with rfl | h
        · rw [ha]; exact List.mem_cons_self _ _
        · exact List.mem_cons_of_mem _ (ih h)
      · rw [if_neg hk] at h
        exact List.mem_cons_of_mem _ (ih h)
    · rw [if_neg ha] at h
      rcases List.mem_cons.1 h with rfl | h
      · exact List.mem_cons_self _ _
      · exact List.mem_cons_of_mem _ (ih h)

theorem cnl_zero_head {r : List Char} {d : Char}
    (h : (collapseNewlinesAux 0 r).head? = some d) : d = '\n' ∨ r.head? = some d := by
  cases r with
  | nil => simp [collapseNewlinesAux] at h
  | cons c r' =>
    rw [cnl_cons] at h
    by_cases hc : c = '\n'
    · rw [if_pos hc, if_pos (by omega)] at h
      simp only [List.head?_cons, Option.some.injEq] at h
      exact Or.inl h.symm
    · rw [if_neg hc] at h
      simp only [List.head?_cons, Option.some.injEq] at h
      exact Or.inr (by rw [List.head?_cons, h])

theorem noDouble_cnl : ∀ (s : List Char) (k : Nat), noDouble s = true →
    noDouble (collapseNewlinesAux k s) = true := by
  intro s
  induction s with
  | nil => intro k _; rfl
  | cons a s ih =>
    intro k h
    rw [cnl_cons]
    by_cases ha : a = '\n'
    · rw [if_pos ha]
      by_cases hk : k < 2
      · rw [if_pos hk]
        refine noDouble_cons_of_left (by decide) (ih (k + 1) (noDouble_tail h))
      · rw [if_neg hk]
        exact ih (k + 1) (noDouble_tail h)
    · rw [if_neg ha]
      refine pairsOkBy_cons_of (ih 0 (noDouble_tail h)) ?_
      intro d hd
      by_cases has : a = ' '
      · rcases cnl_zero_head hd with rfl | hds
        · simp
        · have hd' : d ≠ ' ' := by
            cases s with
            | nil => simp at hds
            | cons e s' =>
              simp only [List.head?_cons, Option.some.injEq] at hds
              subst hds
              rw [noDouble, pairsOkBy_cons₂, Bool.and_eq_true] at h
              intro he
              subst he
              rw [has] at h
              simp at h
          simp [hd']
      · simp [has]

theorem countAlnum_cnl : ∀ (s : List Char) (k : Nat),
    countAlnum (collapseNewlinesAux k s) = countAlnum s := by
  intro s
  induction s with
  | nil => intro k; rfl
  | cons a s ih =>
    intro k
    rw [cnl_cons]
    unfold countAlnum at ih ⊢
    by_cases ha : a = '\n'
    · rw [if_pos ha]
      subst ha
      by_cases hk : k < 2
      · rw [if_pos hk, List.countP_cons, List.countP_cons, ih (k + 1)]
      · rw [if_neg hk, ih (k + 1), List.countP_cons]
        simp [isAlnumChar, isDigitChar]
    · rw [if_neg ha, List.countP_cons, List.countP_cons, ih 0]

/-! ## Lemmas about line splitting and joining -/

theorem splitLines_cons_nl (rest : List Char) :
    splitLines ('\n' :: rest) = [] :: splitLines rest := by
  rw [splitLines, if_pos rfl]

theorem splitLines_ne_nil (s : List Char) : splitLines s ≠ [] := by
  cases s with
  | nil => simp [splitLines]
  | cons c rest =>
    rw [splitLines]
    by_cases hc : c = '\n'
    · rw [if_pos hc]; simp
    · rw [if_neg hc]
      cases splitLines rest <;> simp

theorem splitLines_cons_ne {c : Char} {rest l : List Char} {ls : List (List Char)}
    (hc : c ≠ '\n') (h : splitLines rest = l :: ls) :
    splitLines (c :: rest) = (c :: l) :: ls := by
  rw [splitLines, if_neg hc, h]

theorem joinLines_cons₂ (l l2 : List Char) (ls : List (List Char)) :
    joinLines (l :: l2 :: ls) = l ++ '\n' :: joinLines (l2 :: ls) := rfl

theorem join_split (s : List Char) : joinLines (splitLines s) = s := by
  induction s with
  | nil => rfl
  | cons c rest ih =>
    by_cases hc : c = '\n'
    · subst hc
      rw [splitLines_cons_nl]
      cases hr : splitLines rest with
      | nil => exact absurd hr (splitLines_ne_nil rest)
      | cons l ls =>
        rw [joinLines_cons₂, List.nil_append]
        rw [hr] at ih
        rw [ih]
    · cases hr : splitLines rest with
      | nil => exact absurd hr (splitLines_ne_nil rest)
      | cons l ls =>
        rw [splitLines_cons_ne hc hr]
        rw [hr] at ih
        cases ls with
        | nil =>
          have : joinLines [c :: l] = c :: l := rfl
          rw [this]
          have : joinLines [l] = l := rfl
          rw [this] at ih
          rw [ih]
        | cons l2 ls2 =>
          rw [joinLines_cons₂] at ih ⊢
          exact congrArg (List.cons c) ih

theorem splitLines_of_noNl {s : List Char} (h : '\n' ∉ s) : splitLines s = [s] := by
  induction s with
  | nil => rfl
  | cons c rest ih =>
    have hc : c ≠ '\n' := fun he => h (he ▸ List.mem_cons_self c rest)
    rw [splitLines_cons_ne hc (ih (fun hm => h (List.mem_cons_of_mem c hm)))]

theorem splitLines_no_nl : ∀ (s : List Char), ∀ l ∈ splitLines s, '\n' ∉ l := by
  intro s
  induction s with
  | nil =>
    intro l hl
    simp only [splitLines, List.mem_singleton] at hl
    subst hl
    simp
  | cons c rest ih =>
    intro l hl
    by_cases hc : c = '\n'
    · subst hc
      rw [splitLines_cons_nl] at hl
      rcases List.mem_cons.1 hl with rfl | hl
      · simp
      · exact ih l hl
    · cases hr : splitLines rest with
      | nil => exact absurd hr (splitLines_ne_nil rest)
      | cons l0 ls =>
        rw [splitLines_cons_ne hc hr] at hl
        rcases List.mem_cons.1 hl with rfl | hl
        · intro hm
          rcases List.mem_cons.1 hm with he | hm
          · exact hc he.symm
          · exact ih l0 (hr ▸ List.mem_cons_self l0 ls) hm
        · exact ih l (hr ▸ List.mem_cons_of_mem l0 hl)

theorem splitLines_append_nl {l : List Char} (h : '\n' ∉ l) (t : List Char) :
    splitLines (l ++ '\n' :: t) = l :: splitLines t := by
  induction l with
  | nil => rw [List.nil_append, splitLines_cons_nl]
  | cons c l' ih =>
    have hc : c ≠ '\n' := fun he => h (he ▸ List.mem_cons_self c l')
    rw [List.cons_append, splitLines_cons_ne hc (ih (fun hm => h (List.mem_cons_of_mem c hm)))]

theorem split_join : ∀ (ls : List (List Char)), (∀ l ∈ ls, '\n' ∉ l) → ls ≠ [] →
    splitLines (joinLines ls) = ls := by
  intro ls
  induction ls with
  | nil => intro _ h; exact absurd rfl h
  | cons l ls ih =>
    intro h _
    cases ls with
    | nil =>
      have : joinLines [l] = l := rfl
      rw [this, splitLines_of_noNl (h l (List.mem_cons_self l []))]
    | cons l2 ls2 =>
      rw [joinLines_cons₂, splitLines_append_nl (h l (List.mem_cons_self _ _)),
        ih (fun x hx => h x (List.mem_cons_of_mem _ hx)) (by simp)]

theorem countAlnum_joinLines : ∀ (ls : List (List Char)),
    countAlnum (joinLines ls) = (ls.map countAlnum).sum := by
  intro ls
  induction ls with
  | nil => rfl
  | cons l ls ih =>
    cases ls with
    | nil => simp [joinLines, countAlnum]
    | cons l2 ls2 =>
      rw [joinLines_cons₂]
      unfold countAlnum at ih ⊢
      rw [List.countP_append, List.countP_cons, ih]
      have : isAlnumChar '\n' = false := by decide
      simp [this]

/-! ## Whitespace invariants of `remove_excessive_whitespace` -/

theorem noDouble_rstrip {l : List Char} (h : noDouble l = true) :
    noDouble (rstrip l) = true := by
  obtain ⟨w, hw, -⟩ := rstrip_decomp l
  rw [hw] at h
  exact pairsOkBy_append_left h

theorem noDouble_lstrip {l : List Char} (h : noDouble l = true) :
    noDouble (lstrip l) = true := by
  rw [lstrip_decomp l] at h
  exact pairsOkBy_append_right h

theorem noDouble_strip {l : List Char} (h : noDouble l = true) :
    noDouble (strip l) = true :=
  noDouble_lstrip (noDouble_rstrip h)

theorem noDouble_splitLines : ∀ (t : List Char), noDouble t = true →
    ∀ l ∈ splitLines t, noDouble l = true := by
  intro t
  induction t with
  | nil =>
    intro _ l hl
    simp only [splitLines, List.mem_singleton] at hl
    subst hl
    rfl
  | cons c rest ih =>
    intro h l hl
    by_cases hc : c = '\n'
    · subst hc
      rw [splitLines_cons_nl] at hl
      rcases List.mem_cons.1 hl with rfl | hl
      · rfl
      · exact ih (noDouble_tail h) l hl
    · cases hr : splitLines rest with
      | nil => exact absurd hr (splitLines_ne_nil rest)
      | cons l0 ls =>
        rw [splitLines_cons_ne hc hr] at hl
        rcases List.mem_cons.1 hl with rfl | hl
        · cases ls with
          | nil =>
            have hrest : rest = l0 := by
              conv_lhs => rw [← join_split rest]
              rw [hr]
              rfl
            rw [← hrest]
            exact h
          | cons l2 ls2 =>
            have hrest : rest = l0 ++ '\n' :: joinLines (l2 :: ls2) := by
              conv_lhs => rw [← join_split rest]
              rw [hr, joinLines_cons₂]
            rw [hrest] at h
            exact pairsOkBy_append_left (x := c :: l0) h
        · exact ih (noDouble_tail h) l (hr ▸ List.mem_cons_of_mem l0 hl)

theorem noDouble_join_rstrip : ∀ (ls : List (List Char)),
    (∀ l ∈ ls, noDouble l = true ∧ '\n' ∉ l) →
    noDouble (joinLines (ls.map rstrip)) = true := by
  intro ls
  induction ls with
  | nil => intro _; rfl
  | cons l ls ih =>
    intro h
    cases ls with
    | nil => exact noDouble_rstrip (h l (List.mem_cons_self _ _)).1
    | cons l2 ls2 =>
      rw [show joinLines (List.map rstrip (l :: l2 :: ls2)) =
        rstrip l ++ '\n' :: joinLines (List.map rstrip (l2 :: ls2)) from rfl]
      refine pairsOkBy_append_of (noDouble_rstrip (h l (List.mem_cons_self _ _)).1) ?_ ?_
      · refine pairsOkBy_cons_of (ih (fun x hx => h x (List.mem_cons_of_mem _ hx))) ?_
        intro d _
        simp
      · intro c hc d hd
        simp only [List.head?_cons, Option.some.injEq] at hd
        subst hd
        simp

theorem wsp_noDouble (t : List Char) :
    noDouble (remove_excessive_whitespace t) = true := by
  unfold remove_excessive_whitespace
  refine noDouble_join_rstrip _ ?_
  intro l hl
  exact ⟨noDouble_splitLines _ (noDouble_cnl _ 0 (noDouble_csp t false)) l hl,
    splitLines_no_nl _ l hl⟩

theorem threeSpaces_cons₃ (a b c : Char) (t : List Char) :
    threeSpaces (a :: b :: c :: t) =
      ((a == ' ' && b == ' ' && c == ' ') || threeSpaces (b :: c :: t)) := rfl

theorem threeSpaces_of_noDouble : ∀ {s : List Char}, noDouble s = true →
    threeSpaces s = false := by
  intro s
  induction s with
  | nil => intro _; rfl
  | cons a s ih =>
    intro h
    cases s with
    | nil => rfl
    | cons b s' =>
      cases s' with
      | nil => rfl
      | cons c t =>
        rw [threeSpaces_cons₃, Bool.or_eq_false_iff]
        refine ⟨?_, ih (noDouble_tail h)⟩
        rw [noDouble, pairsOkBy_cons₂, Bool.and_eq_true] at h
        have hab : (a == ' ' && b == ' ') = false := by
          have := h.1
          cases hx : (a == ' ' && b == ' ') with
          | false => rfl
          | true => rw [hx] at this; simp at this
        cases hx : (a == ' ') with
        | false => simp [hx]
        | true =>
          rw [hx] at hab
          simp only [Bool.true_and] at hab
          simp [hab]

/-! ## Per-line trailing-whitespace invariants -/

theorem pairsOk_of_noNl : ∀ {s : List Char}, '\n' ∉ s → pairsOk s = true := by
  intro s
  induction s with
  | nil => intro _; rfl
  | cons a s ih =>
    intro h
    cases s with
    | nil => rfl
    | cons b s' =>
      rw [pairsOk, pairsOkBy_cons₂, Bool.and_eq_true]
      constructor
      · have hb : b ≠ '\n' := fun he =>
          h (List.mem_cons_of_mem a (he ▸ List.mem_cons_self b s'))
        simp [hb]
      · exact ih (fun hm => h (List.mem_cons_of_mem a hm))

theorem lastOk_of_getLast {s : List Char}
    (h : ∀ c, s.getLast? = some c → pyWs c = false) : lastOk s = true := by
  unfold lastOk
  cases hg : s.getLast? with
  | none => rfl
  | some c => simp [h c hg]

theorem lastOk_cons {c : Char} {t : List Char} (ht : t ≠ []) :
    lastOk (c :: t) = lastOk t := by
  unfold lastOk
  cases t with
  | nil => exact absurd rfl ht
  | cons r t' => rw [List.getLast?_cons_cons]

theorem lastOk_some {s : List Char} {c : Char} (h : lastOk s = true)
    (hg : s.getLast? = some c) : pyWs c = false ∨ c = '\n' := by
  unfold lastOk at h
  rw [hg] at h
  simp only [Bool.not_eq_eq_eq_not, Bool.not_true, Bool.and_eq_false_iff] at h
  rcases h with h | h
  · exact Or.inl h
  · simp only [bne_eq_false_iff_eq] at h
    exact Or.inr h

theorem pairsOk_join_rstrip : ∀ (ls : List (List Char)),
    (∀ l ∈ ls, '\n' ∉ l) → pairsOk (joinLines (ls.map rstrip)) = true := by
  intro ls
  induction ls with
  | nil => intro _; rfl
  | cons l ls ih =>
    intro h
    cases ls with
    | nil =>
      refine pairsOk_of_noNl ?_
      intro hm
      exact h l (List.mem_cons_self _ _) (mem_rstrip hm)
    | cons l2 ls2 =>
      rw [show joinLines (List.map rstrip (l :: l2 :: ls2)) =
        rstrip l ++ '\n' :: joinLines (List.map rstrip (l2 :: ls2)) from rfl]
      refine pairsOkBy_append_of ?_ ?_ ?_
      · exact pairsOk_of_noNl (fun hm => h l (List.mem_cons_self _ _) (mem_rstrip hm))
      · refine pairsOkBy_cons_of (ih (fun x hx => h x (List.mem_cons_of_mem _ hx))) ?_
        intro d _
        simp
      · intro c hc d hd
        simp only [List.head?_cons, Option.some.injEq] at hd
        subst hd
        simp [rstrip_getLast? hc]

theorem pairsOk_lstrip {s : List Char} (h : pairsOk s = true) :
    pairsOk (lstrip s) = true := by
  rw [lstrip_decomp s] at h
  exact pairsOkBy_append_right h

theorem pairsOk_rstrip {s : List Char} (h : pairsOk s = true) :
    pairsOk (rstrip s) = true := by
  obtain ⟨w, hw, -⟩ := rstrip_decomp s
  rw [hw] at h
  exact pairsOkBy_append_left h

theorem getLast_not_ws_of_rstrip_eq {l : List Char} (h : rstrip l = l) :
    ∀ c, l.getLast? = some c → pyWs c = false := by
  intro c hc
  rw [← h] at hc
  exact rstrip_getLast? hc

theorem lines_rstripped : ∀ (s : List Char), pairsOk s = true → lastOk s = true →
    ∀ l ∈ splitLines s, rstrip l = l := by
  intro s
  induction s with
  | nil =>
    intro _ _ l hl
    simp only [splitLines, List.mem_singleton] at hl
    subst hl
    rfl
  | cons c rest ih =>
    intro hp hlo l hl
    have hpr : pairsOk rest = true := pairsOkBy_tail hp
    have hlr : rest ≠ [] → lastOk rest = true := by
      intro hne
      rw [← lastOk_cons (c := c) hne]
      exact hlo
    by_cases hc : c = '\n'
    · subst hc
      rw [splitLines_cons_nl] at hl
      rcases List.mem_cons.1 hl with rfl | hl
      · rfl
      · cases hrest : rest with
        | nil =>
          rw [hrest] at hl
          simp only [splitLines, List.mem_singleton] at hl
          subst hl
          rfl
        | cons r rest' =>
          exact ih hpr (hlr (by rw [hrest]; simp)) l hl
    · cases hr : splitLines rest with
      | nil => exact absurd hr (splitLines_ne_nil rest)
      | cons l0 ls =>
        rw [splitLines_cons_ne hc hr] at hl
        rcases List.mem_cons.1 hl with rfl | hl
        · cases hl0 : l0 with
          | nil =>
            have hcws : pyWs c = false := by
              cases hrest : rest with
              | nil =>
                have : lastOk [c] = true := by rw [← hrest]; exact hlo
                unfold lastOk at this
                simp only [List.getLast?_singleton] at this
                simp only [Bool.not_eq_eq_eq_not, Bool.not_true, Bool.and_eq_false_iff] at this
                rcases this with h | h
                · exact h
                · simp only [bne_eq_false_iff_eq] at h
                  exact absurd h hc
              | cons r rest' =>
                by_cases hrn : r = '\n'
                · subst hrn
                  rw [hrest, pairsOk, pairsOkBy_cons₂, Bool.and_eq_true] at hp
                  have := hp.1
                  simp only [Bool.not_eq_eq_eq_not, Bool.not_true, Bool.and_eq_false_iff,
                    Bool.and_eq_false_iff] at this
                  rcases this with (h | h) | h
                  · exact h
                  · simp only [bne_eq_false_iff_eq] at h
                    exact absurd h hc
                  · simp at h
                · exfalso
                  rw [hrest] at hr
                  cases hr2 : splitLines rest' with
                  | nil => exact absurd hr2 (splitLines_ne_nil rest')
                  | cons m ms =>
                    rw [splitLines_cons_ne hrn hr2] at hr
                    cases hr
                    simp at hl0
            refine rstrip_eq_self_of_getLast? ?_
            intro d hd
            subst hl0
            simp only [List.getLast?_singleton, Option.some.injEq] at hd
            subst hd
            exact hcws
          | cons d l0' =>
            have hl0mem : l0 ∈ splitLines rest := hr ▸ List.mem_cons_self l0 ls
            have hrne : rest ≠ [] := by
              intro he
              rw [he] at hr
              simp only [splitLines] at hr
              cases hr
              simp at hl0
            have hrs : rstrip l0 = l0 := ih hpr (hlr hrne) l0 hl0mem
            refine rstrip_eq_self_of_getLast? ?_
            intro e he
            rw [List.getLast?_cons_cons] at he
            rw [← hl0] at he
            exact getLast_not_ws_of_rstrip_eq hrs e he
        · have hrne : rest ≠ [] := by
            intro he
            rw [he] at hr
            simp only [splitLines] at hr
            injection hr with h1 h2
            rw [← h2] at hl
            simp at hl
          exact ih hpr (hlr hrne) l (hr ▸ List.mem_cons_of_mem l0 hl)

/-! ## Claim theorems: whitespace output guarantee -/

/-- C2, counterexample.  The output of `preprocess_text` can contain three
consecutive blank lines: whitespace-only lines in the protected middle of a
document survive page-artifact removal and are only emptied by the per-line
`rstrip`, which runs after the `\n{3,}` collapse.  On `blankRunDoc` the output
contains `word\n\n\n\nword`. -/
theorem c2_counterexample :
    threeBlankLines (splitLines (preprocess_text blankRunDoc)) = true := by
  decide

/-- C2, amended.  For every input string the output of `preprocess_text` has
no three-or-more consecutive interior spaces, no trailing whitespace on any
line, and no leading or trailing whitespace overall; the claimed absence of
three-or-more consecutive blank lines does not hold (see the
counterexample). -/
theorem c2_whitespace_guarantees (x : List Char) :
    threeSpaces (preprocess_text x) = false ∧
    (∀ l ∈ splitLines (preprocess_text x), rstrip l = l) ∧
    lstrip (preprocess_text x) = preprocess_text x ∧
    rstrip (preprocess_text x) = preprocess_text x := by
  have hform : preprocess_text x =
      strip (remove_excessive_whitespace (normalize_section_headers
        (remove_table_of_contents_artifacts (remove_page_artifacts
          (clean_special_characters x))))) := rfl
  set u := normalize_section_headers (remove_table_of_contents_artifacts
    (remove_page_artifacts (clean_special_characters x))) with hu
  rw [hform]
  refine ⟨?_, ?_, ?_, ?_⟩
  · exact threeSpaces_of_noDouble (noDouble_strip (wsp_noDouble u))
  · have hpJ : pairsOk (remove_excessive_whitespace u) = true := by
      unfold remove_excessive_whitespace
      exact pairsOk_join_rstrip _ (splitLines_no_nl _)
    have hpy : pairsOk (strip (remove_excessive_whitespace u)) = true :=
      pairsOk_lstrip (pairsOk_rstrip hpJ)
    have hly : lastOk (strip (remove_excessive_whitespace u)) = true :=
      lastOk_of_getLast (fun c hc => strip_getLast? hc)
    exact lines_rstripped _ hpy hly
  · exact lstrip_strip _
  · exact rstrip_strip _

/-! ## Alphanumeric-content preservation -/

theorem countAlnum_wsp (t : List Char) :
    countAlnum (remove_excessive_whitespace t) = countAlnum t := by
  unfold remove_excessive_whitespace
  rw [countAlnum_joinLines, List.map_map]
  have hmc : List.map (countAlnum ∘ rstrip)
      (splitLines (collapseNewlines (collapseSpaces t))) =
      List.map countAlnum (splitLines (collapseNewlines (collapseSpaces t))) :=
    List.map_congr_left (fun l _ => countAlnum_rstrip l)
  rw [hmc, ← countAlnum_joinLines, join_split]
  unfold collapseNewlines collapseSpaces
  rw [countAlnum_cnl, countAlnum_csp]

theorem ddg_succ_cons (n : Nat) (c : Char) (r : List Char) :
    dotDigitGroups (n + 1) (c :: r) =
      if c = '.' then
        (if (r.takeWhile isDigitChar).isEmpty then ([], c :: r)
         else (c :: r.takeWhile isDigitChar ++ (dotDigitGroups n (r.dropWhile isDigitChar)).1,
               (dotDigitGroups n (r.dropWhile isDigitChar)).2))
      else ([], c :: r) := rfl

theorem ddg_decomp : ∀ (n : Nat) (s : List Char),
    (dotDigitGroups n s).1 ++ (dotDigitGroups n s).2 = s := by
  intro n
  induction n with
  | zero => intro s; rfl
  | succ n ih =>
    intro s
    cases s with
    | nil => rfl
    | cons c r =>
      rw [ddg_succ_cons]
      by_cases hc : c = '.'
      · rw [if_pos hc]
        by_cases hds : (r.takeWhile isDigitChar).isEmpty
        · rw [if_pos hds]
          rfl
        · rw [if_neg hds]
          simp only [List.cons_append, List.append_assoc]
          rw [ih (r.dropWhile isDigitChar), List.takeWhile_append_dropWhile]
      · rw [if_neg hc]
        rfl

theorem countAlnum_normLine (l : List Char) :
    countAlnum (normalizeHeaderLine l) = countAlnum l := by
  unfold normalizeHeaderLine
  by_cases h1 : (l.takeWhile isDigitChar).isEmpty
  · rw [if_pos h1]
  · rw [if_neg h1]
    split
    next u r3 heq =>
      by_cases hu : isUpperChar u = true
      · rw [if_pos hu]
        have hl : l = l.takeWhile isDigitChar ++
            ((dotDigitGroups l.length (l.dropWhile isDigitChar)).1 ++
              ((dotDigitGroups l.length (l.dropWhile isDigitChar)).2.takeWhile pyWs ++
                (u :: r3))) := by
          conv_lhs => rw [← List.takeWhile_append_dropWhile isDigitChar l]
          rw [← heq, List.takeWhile_append_dropWhile pyWs, ddg_decomp]
        conv_rhs => rw [hl]
        unfold countAlnum
        have hW : List.countP isAlnumChar
            ((dotDigitGroups l.length (l.dropWhile isDigitChar)).2.takeWhile pyWs) = 0 :=
          countP_eq_zero_of_ws (fun c h => pyWs_not_alnum h)
            (fun c hc => List.mem_takeWhile_imp hc)
        have hsp : isAlnumChar ' ' = false := by decide
        simp only [List.countP_append, List.countP_cons, hW, hsp, Bool.false_eq_true,
          if_false]
        omega
      · rw [if_neg hu]
    next heq => rfl

theorem countAlnum_headers (t : List Char) :
    countAlnum (normalize_section_headers t) = countAlnum t := by
  unfold normalize_section_headers
  rw [countAlnum_joinLines, List.map_map]
  have hmc : List.map (countAlnum ∘ normalizeHeaderLine) (splitLines t) =
      List.map countAlnum (splitLines t) :=
    List.map_congr_left (fun l _ => countAlnum_normLine l)
  rw [hmc, ← countAlnum_joinLines, join_split]

/-! ### `pyReplace`: generic lemmas -/

theorem replaceAux_cons (key rep : List Char) (n : Nat) (c : Char) (rest : List Char) :
    replaceAux key rep (n + 1) (c :: rest) =
      if key.isPrefixOf (c :: rest) then
        rep ++ replaceAux key rep n ((c :: rest).drop key.length)
      else c :: replaceAux key rep n rest := rfl

theorem isPrefixOf_decomp : ∀ {key s : List Char}, key.isPrefixOf s = true →
    s = key ++ s.drop key.length := by
  intro key
  induction key with
  | nil => intro s _; rfl
  | cons k ks ih =>
    intro s h
    cases s with
    | nil => exact Bool.noConfusion h
    | cons c cs =>
      have h2 : (k == c && ks.isPrefixOf cs) = true := h
      rw [Bool.and_eq_true] at h2
      have hk : k = c := eq_of_beq h2.1
      subst hk
      show k :: cs = k :: (ks ++ cs.drop ks.length)
      exact congrArg (List.cons k) (ih h2.2)

theorem countAlnum_replaceAux {key rep : List Char} (hk : countAlnum key = 0)
    (hr : countAlnum rep = 0) : ∀ (n : Nat) (s : List Char),
    countAlnum (replaceAux key rep n s) = countAlnum s := by
  intro n
  induction n with
  | zero => intro s; rfl
  | succ n ih =>
    intro s
    cases s with
    | nil => rfl
    | cons c rest =>
      rw [replaceAux_cons]
      by_cases hp : key.isPrefixOf (c :: rest) = true
      · rw [if_pos hp]
        unfold countAlnum at hk hr ih ⊢
        rw [List.countP_append, hr, ih]
        conv_rhs => rw [isPrefixOf_decomp hp]
        rw [List.countP_append, hk]
      · rw [if_neg hp]
        unfold countAlnum at ih ⊢
        rw [List.countP_cons, List.countP_cons, ih]

theorem countAlnum_pyReplace {key rep : List Char} (hk : countAlnum key = 0)
    (hr : countAlnum rep = 0) (s : List Char) :
    countAlnum (pyReplace key rep s) = countAlnum s :=
  countAlnum_replaceAux hk hr s.length s

theorem countAlnum_filterMapClean (s : List Char) :
    countAlnum (s.filterMap cleanChar) = countAlnum s := by
  induction s with
  | nil => rfl
  | cons c s ih =>
    rcases hcc : cleanChar c with _ | d
    · have hstep : (c :: s).filterMap cleanChar = s.filterMap cleanChar := by
        rw [List.filterMap_cons, hcc]
      have hna : isAlnumChar c = false := by
        unfold cleanChar at hcc
        by_cases h1 : c = '\x00' ∨ c = '\uFEFF' ∨ c = '\u200B'
        · rcases h1 with rfl | rfl | rfl <;> decide
        · rw [if_neg h1] at hcc
          by_cases h2 : c = '\u00A0'
          · rw [if_pos h2] at hcc; cases hcc
          · rw [if_neg h2] at hcc
            by_cases h3 : c = '\u2013' ∨ c = '\u2014'
            · rw [if_pos h3] at hcc; cases hcc
            · rw [if_neg h3] at hcc; cases hcc
      rw [hstep]
      unfold countAlnum at ih ⊢
      rw [List.countP_cons, ih, hna]
      simp
    · have hstep : (c :: s).filterMap cleanChar = d :: s.filterMap cleanChar := by
        rw [List.filterMap_cons, hcc]
      have hna : isAlnumChar d = isAlnumChar c := by
        unfold cleanChar at hcc
        by_cases h1 : c = '\x00' ∨ c = '\uFEFF' ∨ c = '\u200B'
        · rw [if_pos h1] at hcc; cases hcc
        · rw [if_neg h1] at hcc
          by_cases h2 : c = '\u00A0'
          · rw [if_pos h2] at hcc
            cases hcc
            subst h2
            decide
          · rw [if_neg h2] at hcc
            by_cases h3 : c = '\u2013' ∨ c = '\u2014'
            · rw [if_pos h3] at hcc
              cases hcc
              rcases h3 with rfl | rfl <;> decide
            · rw [if_neg h3] at hcc
              cases hcc
              rfl
      rw [hstep]
      unfold countAlnum at ih ⊢
      rw [List.countP_cons, List.countP_cons, ih, hna]

theorem countAlnum_clean (s : List Char) :
    countAlnum (clean_special_characters s) = countAlnum s := by
  unfold clean_special_characters
  rw [countAlnum_pyReplace (by decide) (by decide), countAlnum_filterMapClean]

/-- C7, counterexample.  The input `"ab"` consists of the single alphanumeric
token `ab`, which matches none of the designed artifact classes (it is not
numeric and is not `page`/`of`), yet `preprocess_text "ab" = ""`: the
boundary short-line heuristic of `remove_page_artifacts` deletes the whole
line, so the token does not survive. -/
theorem c7_counterexample :
    alnumTokens ("ab".data) = [("ab".data)] ∧
    designedArtifactToken ("ab".data) = false ∧
    preprocess_text ("ab".data) = [] ∧
    alnumTokens (preprocess_text ("ab".data)) = [] := by
  decide

/-- C7, amended.  Alphanumeric content can only be deleted by the
page-artifact stage (its page-number patterns and its short-line boundary
heuristic) and by the table-of-contents stage: the character-normalization
stage and everything after artifact removal (header-spacing normalization,
whitespace compaction, the final strip) preserve the number of alphanumeric
characters exactly. -/
theorem c7_content_preservation (x : List Char) :
    countAlnum (preprocess_text x) =
      countAlnum (remove_table_of_contents_artifacts (remove_page_artifacts
        (clean_special_characters x))) ∧
    countAlnum (clean_special_characters x) = countAlnum x := by
  constructor
  · have hform : preprocess_text x =
        strip (remove_excessive_whitespace (normalize_section_headers
          (remove_table_of_contents_artifacts (remove_page_artifacts
            (clean_special_characters x))))) := rfl
    rw [hform, countAlnum_strip, countAlnum_wsp, countAlnum_headers]
  · exact countAlnum_clean x

/-! ## Digit-free inputs: the artifact stages are the identity -/

end ComplianceRag
